import Mathlib

/-!
Verification of the daily-cleaner pipeline (sweep → validate → patch → publish)
of the `ojfbot/daily-logger` repository.

The cleaner's pure core is embedded shallowly:

* JavaScript string/array primitives (`split('\n')`, `join('\n')`,
  `Array.prototype.slice` with its index clamping) are modelled as executable
  Lean functions on `List Char` / `List String`.
* `applyProposal`, the candidate sweep (`sweepForCandidates` / `extractTodos`),
  the oracle validators (`validateDocCandidate` / `validateTodoCandidate` /
  `validateCandidates`) and the per-repository publish loop (`openCleanPRs`)
  are translated from the source.  Fallible external calls (the oracle, git,
  the GitHub API) are modelled with `Option`-style response types and an
  explicit world state recording branches, pull requests and the
  clone/commit/push events of a run.
-/

namespace DailyCleaner

/-- One step of splitting on newlines: a newline character starts a fresh
empty line in front of the split of the rest, any other character is
prepended to the first line of the split of the rest. -/
def consSplit (c : Char) : List (List Char) → List (List Char)
  | [] => [[]]
  | h :: t => if c = '\n' then [] :: h :: t else (c :: h) :: t

/-- JavaScript `content.split('\n')` at the character level: split on every
newline character, never collapsing separators; the empty string yields one
empty line. -/
def splitNlC : List Char → List (List Char)
  | [] => [[]]
  | c :: cs => consSplit c (splitNlC cs)

/-- JavaScript `String.prototype.split('\n')`. -/
def splitNlStr (s : String) : List String :=
  (splitNlC s.data).map String.mk

/-- JavaScript `Array.prototype.join('\n')` at the character level. -/
def joinC : List (List Char) → List Char
  | [] => []
  | [l] => l
  | l :: ls => l ++ '\n' :: joinC ls

/-- JavaScript `lines.join('\n')` on strings. -/
def joinNl (ls : List String) : String :=
  String.mk (joinC (ls.map String.data))

/-- Index normalization of JavaScript `Array.prototype.slice`: a negative
index counts from the end of the array, and every index is clamped into
`[0, len]`. -/
def jsSliceIdx (len : Nat) (i : Int) : Nat :=
  if i < 0 then ((len : Int) + i).toNat else min i.toNat len

/-- JavaScript `arr.slice(start, stop)`. -/
def jsSlice (xs : List α) (start stop : Int) : List α :=
  (xs.take (jsSliceIdx xs.length stop)).drop (jsSliceIdx xs.length start)

/-- JavaScript `arr.slice(start)`, i.e. `arr.slice(start, arr.length)`. -/
def jsSliceFrom (xs : List α) (start : Int) : List α :=
  jsSlice xs start xs.length

/-- JavaScript truthiness of a possibly-absent string: `undefined` and the
empty string are falsy. -/
def truthy : Option String → Bool
  | none => false
  | some s => s != ""

/-- `CleanCandidate` from `types.ts`. -/
inductive CandidateKind
  | todo
  | fixme
  | docFile
  | inlineComment
deriving DecidableEq, Repr

structure CleanCandidate where
  repo : String
  filePath : String
  startLine : Int
  endLine : Int
  original : String
  context : String
  kind : CandidateKind
  recentCommits : String
deriving DecidableEq, Repr

/-- `CleanProposal` from `types.ts`.  The string-valued fields are `Option`s
because at runtime the validator copies fields of the oracle's JSON without
shape validation, so any of them can be absent (JavaScript `undefined`). -/
structure CleanProposal where
  repo : String
  filePath : String
  startLine : Int
  endLine : Int
  original : Option String
  replacement : Option String
  rationale : Option String
  confidence : Option String
deriving DecidableEq, Repr

/-- `applyProposal` from the cleaner: split the file content into lines, keep
the lines before `startLine`, insert the replacement as a single array element
when it is truthy, keep the lines after `endLine`, and join with newlines. -/
def applyProposalStr (content : String) (p : CleanProposal) : String :=
  let lines := splitNlStr content
  let before := jsSlice lines 0 (p.startLine - 1)
  let after := jsSliceFrom lines p.endLine
  let middle := if truthy p.replacement then [p.replacement.getD ""] else []
  joinNl (before ++ middle ++ after)

/-- The comparator `(a, b) => b.startLine - a.startLine` of `openCleanPRs`:
`a` sorts no later than `b` exactly when `a.startLine ≥ b.startLine`. -/
def proposalGE (a b : CleanProposal) : Bool :=
  b.startLine ≤ a.startLine

/-- Stable insertion of a proposal into a descending-sorted list, after every
earlier element whose `startLine` is at least as large. -/
def insertDesc (p : CleanProposal) : List CleanProposal → List CleanProposal
  | [] => [p]
  | q :: qs => if proposalGE q p then q :: insertDesc p qs else p :: q :: qs

/-- `[...repoProposals].sort((a, b) => b.startLine - a.startLine)` — a stable
sort, descending by `startLine` (`Array.prototype.sort` is stable). -/
def sortProposalsDesc (ps : List CleanProposal) : List CleanProposal :=
  ps.foldr insertDesc []

/-- The application loop of `openCleanPRs` for a batch of proposals that all
target one file: sort descending by `startLine`, then apply each proposal to
the file content in turn. -/
def applyAll (content : String) (ps : List CleanProposal) : String :=
  (sortProposalsDesc ps).foldl applyProposalStr content

/-- The line-numbering map of the sweep: each line is prefixed with its
1-based line number and a colon, numbering upward from `base`. -/
def numberLinesFrom (base : Nat) : List String → List String
  | [] => []
  | l :: ls => (Nat.repr base ++ ": " ++ l) :: numberLinesFrom (base + 1) ls

/-- The doc-file candidate built by `sweepForCandidates`: it spans the whole
file and its context is the fully numbered file. -/
def docCandidate (repo docFile content recentCommits : String) : CleanCandidate :=
  { repo := repo
    filePath := docFile
    startLine := 1
    endLine := ((splitNlStr content).length : Int)
    original := content
    context := joinNl (numberLinesFrom 1 (splitNlStr content))
    kind := .docFile
    recentCommits := recentCommits }

/-- The doc-file acceptance gate of `sweepForCandidates`: the remote read must
succeed (`readRemoteFile` returns non-null) and the content must be at least
50 characters, otherwise the file is skipped. -/
def sweepDocFile (repo docFile : String) (fetched : Option String)
    (recentCommits : String) : Option CleanCandidate :=
  match fetched with
  | none => none
  | some content =>
    if content.length < 50 then none
    else some (docCandidate repo docFile content recentCommits)

/-- One tag candidate as built by `extractTodos` for the line at 0-based index
`i` of `lines`: the context window is the ±8-line window clipped to the file
(`Math.max(0, i - 8)` is truncated subtraction here), and the candidate spans
exactly the matched line.  `fixmeTest` models the regex test `/fixme/i`. -/
def mkTodoCandidate (fixmeTest : String → Bool)
    (repo filePath recentCommits : String) (lines : List String)
    (i : Nat) (line : String) : CleanCandidate :=
  let ctxStart := i - 8
  let ctxEnd := min (lines.length - 1) (i + 8)
  { repo := repo
    filePath := filePath
    startLine := (i : Int) + 1
    endLine := (i : Int) + 1
    original := line
    context := joinNl (numberLinesFrom (ctxStart + 1) ((lines.take (ctxEnd + 1)).drop ctxStart))
    kind := if fixmeTest line then .fixme else .todo
    recentCommits := recentCommits }

/-- The scanning loop of `extractTodos`: every line matching the tag pattern
(an opaque predicate `todoTest` modelling `TODO_RE.test`) yields one
candidate; `i` is the 0-based index of the head of the remaining lines. -/
def extractTodosAux (todoTest fixmeTest : String → Bool)
    (repo filePath recentCommits : String) (allLines : List String) :
    Nat → List String → List CleanCandidate
  | _, [] => []
  | i, l :: rest =>
    let tail :=
      extractTodosAux todoTest fixmeTest repo filePath recentCommits allLines (i + 1) rest
    if todoTest l then
      mkTodoCandidate fixmeTest repo filePath recentCommits allLines i l :: tail
    else tail

/-- `extractTodos` from the cleaner, with the two regex tests as opaque
predicates. -/
def extractTodos (todoTest fixmeTest : String → Bool)
    (repo filePath content recentCommits : String) : List CleanCandidate :=
  let lines := splitNlStr content
  extractTodosAux todoTest fixmeTest repo filePath recentCommits lines 0 lines

/-- One edit object of the doc-validation oracle response.  All fields other
than the line numbers are optional because the JSON shape is never
validated before use. -/
structure DocEdit where
  startLine : Int
  endLine : Int
  original : Option String
  replacement : Option String
  rationale : Option String
  confidence : Option String
deriving DecidableEq, Repr

/-- Outcome of the doc-validation oracle call.  `failure` covers a failed API
call, an unparsable response, and any response whose processing throws —
everything caught by the `try`/`catch` of `validateDocCandidate`. -/
inductive DocOracleResponse
  | failure
  | edits (es : List DocEdit)
deriving DecidableEq, Repr

/-- `validateDocCandidate`: keep exactly the edits whose `confidence` field is
the string `high` or the string `medium`, copying the oracle's fields —
including its line numbers — into proposals; a failed call yields no
proposals and no error. -/
def validateDocCandidate (c : CleanCandidate) (resp : DocOracleResponse) :
    List CleanProposal :=
  match resp with
  | .failure => []
  | .edits es =>
    (es.filter (fun e => e.confidence == some "high" || e.confidence == some "medium")).map
      (fun e =>
        { repo := c.repo
          filePath := c.filePath
          startLine := e.startLine
          endLine := e.endLine
          original := e.original
          replacement := e.replacement
          rationale := e.rationale
          confidence := e.confidence })

/-- The object parsed from the tag-validation oracle response.  `resolved`
is the JavaScript truthiness of the `resolved` field (absent → false); the
string fields are optional because the shape is never validated. -/
structure TodoResult where
  resolved : Bool
  evidence : Option String
  replacement : Option String
  confidence : Option String
deriving DecidableEq, Repr

/-- Outcome of the tag-validation oracle call; `failure` as for doc
validation. -/
inductive TodoOracleResponse
  | failure
  | result (r : TodoResult)
deriving DecidableEq, Repr

/-- `validateTodoCandidate`: return `none` on a failed call, when the oracle
does not report the item resolved, or when its `confidence` field is exactly
the string `low`; otherwise build the single proposal for the candidate's own
line range (`result.replacement ?? ''` becomes the replacement). -/
def validateTodoCandidate (c : CleanCandidate) (resp : TodoOracleResponse) :
    Option CleanProposal :=
  match resp with
  | .failure => none
  | .result r =>
    if !r.resolved || r.confidence == some "low" then none
    else some
      { repo := c.repo
        filePath := c.filePath
        startLine := c.startLine
        endLine := c.endLine
        original := some c.original
        replacement := some (r.replacement.getD "")
        rationale := r.evidence
        confidence := r.confidence }

/-- `validateCandidates`: doc-file candidates go through doc validation (all
returned edits are appended), every other kind goes through tag validation
(at most one proposal appended); the loop always continues with the remaining
candidates.  The oracle is modelled by one response function per call
shape. -/
def validateCandidates (oracleDoc : CleanCandidate → DocOracleResponse)
    (oracleTodo : CleanCandidate → TodoOracleResponse) :
    List CleanCandidate → List CleanProposal
  | [] => []
  | c :: cs =>
    (match c.kind with
     | .docFile => validateDocCandidate c (oracleDoc c)
     | _ => (validateTodoCandidate c (oracleTodo c)).toList)
      ++ validateCandidates oracleDoc oracleTodo cs

/-- A pull request recorded against the model of the git-hosting service. -/
structure PullRequest where
  repo : String
  branch : String
  title : String
deriving DecidableEq, Repr

/-- Observable state of the git-hosting service together with an event log of
the side-effecting steps `openCleanPRs` performs: upstream branches, opened
pull requests, and the clone / commit / push events of the trace so far. -/
structure World where
  branches : List (String × String)
  prs : List PullRequest
  clones : List String
  commitsMade : List String
  pushes : List String
deriving DecidableEq, Repr

/-- The world with no branches, no pull requests and an empty event log. -/
def emptyWorld : World :=
  { branches := [], prs := [], clones := [], commitsMade := [], pushes := [] }

/-- Which external steps throw for which repository.  `prCreateFails` models
`gh pr create` failing through `tryRun`, which swallows the error instead of
throwing. -/
structure FailSpec where
  cloneFails : String → Bool
  applyFails : String → Bool
  commitFails : String → Bool
  pushFails : String → Bool
  prCreateFails : String → Bool

/-- The failure-free environment. -/
def noFail : FailSpec :=
  { cloneFails := fun _ => false
    applyFails := fun _ => false
    commitFails := fun _ => false
    pushFails := fun _ => false
    prCreateFails := fun _ => false }

/-- The per-repository body of the loop in `openCleanPRs`: a dry run only
logs; an existing `clean/<date>` branch upstream is an idempotent skip;
otherwise clone, apply the proposals, commit, push (any failure of these
abandons the repository via the surrounding `catch`), and finally create the
pull request (whose failure is swallowed by `tryRun`). -/
def processRepo (f : FailSpec) (date : String) (dryRun : Bool)
    (w : World) (repo : String) : World :=
  let branch := "clean/" ++ date
  if dryRun then w
  else if (repo, branch) ∈ w.branches then w
  else if f.cloneFails repo then w
  else
    let w1 : World := { w with clones := w.clones ++ [repo] }
    if f.applyFails repo then w1
    else if f.commitFails repo then w1
    else
      let w2 : World := { w1 with commitsMade := w1.commitsMade ++ [repo] }
      if f.pushFails repo then w2
      else
        let w3 : World := { w2 with
          pushes := w2.pushes ++ [repo]
          branches := w2.branches ++ [(repo, branch)] }
        if f.prCreateFails repo then w3
        else { w3 with
          prs := w3.prs ++ [{ repo := repo, branch := branch,
                              title := "clean: stale docs/comments " ++ date }] }

/-- The insertion-ordered key list of the `byRepo` map built at the top of
`openCleanPRs` (a `Map` iterates in key-insertion order). -/
def groupKeys (ps : List CleanProposal) : List String :=
  ps.foldl (fun acc p => if acc.contains p.repo then acc else acc ++ [p.repo]) []

/-- The repository loop of `openCleanPRs`, acting on the model world. -/
def openCleanPRsW (f : FailSpec) (ps : List CleanProposal) (date : String)
    (dryRun : Bool) (w : World) : World :=
  (groupKeys ps).foldl (processRepo f date dryRun) w

/-- The number of pull requests recorded for `repo`. -/
def prCount (w : World) (repo : String) : Nat :=
  w.prs.countP (fun pr => pr.repo == repo)

/-! ### Concrete sample inputs -/

/-- A one-line replacement proposal against `repo`, used as concrete input. -/
def proposalFor (repo : String) : CleanProposal :=
  { repo := repo
    filePath := "README.md"
    startLine := 1
    endLine := 1
    original := some "old intro"
    replacement := some "new intro"
    rationale := some "intro changed"
    confidence := some "high" }

/-- Three single-proposal repositories. -/
def scenarioProposals : List CleanProposal :=
  [proposalFor "alpha", proposalFor "beta", proposalFor "gamma"]

/-- A batch with two proposals for `shell` and one for `web`. -/
def idemProposals : List CleanProposal :=
  [proposalFor "shell", proposalFor "shell", proposalFor "web"]

/-- Failure environment in which only the push of `beta` fails. -/
def scenarioFail : FailSpec :=
  { cloneFails := fun _ => false
    applyFails := fun _ => false
    commitFails := fun _ => false
    pushFails := fun r => r == "beta"
    prCreateFails := fun _ => false }

/-! ### Lemmas about the string primitives -/

@[simp] theorem data_mk (l : List Char) : (String.mk l).data = l := rfl

@[simp] theorem joinC_nil : joinC [] = [] := rfl

@[simp] theorem joinC_single (l : List Char) : joinC [l] = l := rfl

@[simp] theorem joinC_cons_cons (l m : List Char) (ls : List (List Char)) :
    joinC (l :: m :: ls) = l ++ '\n' :: joinC (m :: ls) := rfl

theorem consSplit_ne_nil (c : Char) (ls : List (List Char)) : consSplit c ls ≠ [] := by
  cases ls with
  | nil => simp [consSplit]
  | cons h t => by_cases hc : c = '\n' <;> simp [consSplit, hc]

theorem splitNlC_ne_nil (l : List Char) : splitNlC l ≠ [] := by
  cases l with
  | nil => simp [splitNlC]
  | cons c cs => simp [splitNlC, consSplit_ne_nil]

theorem joinC_consSplit (c : Char) (ls : List (List Char)) (h : ls ≠ []) :
    joinC (consSplit c ls) = c :: joinC ls := by
  cases ls with
  | nil => exact absurd rfl h
  | cons hd tl =>
    by_cases hc : c = '\n'
    · subst hc
      simp only [consSplit, if_pos rfl]
      cases tl <;> simp
    · simp only [consSplit, if_neg hc]
      cases tl with
      | nil => simp
      | cons t ts => simp

/-- Splitting on newlines and joining back with newlines is the identity. -/
theorem joinC_splitNlC (l : List Char) : joinC (splitNlC l) = l := by
  induction l with
  | nil => rfl
  | cons c cs ih =>
    rw [show splitNlC (c :: cs) = consSplit c (splitNlC cs) from rfl,
      joinC_consSplit c _ (splitNlC_ne_nil cs), ih]

theorem joinC_append : ∀ (xs ys : List (List Char)), xs ≠ [] → ys ≠ [] →
    joinC (xs ++ ys) = joinC xs ++ '\n' :: joinC ys
  | [], _, hx, _ => absurd rfl hx
  | [_], [], _, hy => absurd rfl hy
  | _ :: _ :: _, [], _, hy => absurd rfl hy
  | [x], y :: ys, _, _ => by simp
  | x :: x2 :: xs2, y :: ys, _, _ => by
    have h2 := joinC_append (x2 :: xs2) (y :: ys) (by simp) (by simp)
    simp only [List.cons_append, joinC_cons_cons] at h2 ⊢
    rw [h2]
    simp [List.append_assoc]

/-- Inserting a split string between two line blocks produces the same joined
text as inserting the string whole. -/
theorem joinC_splitNlC_context (bs as : List (List Char)) (d : List Char) :
    joinC (bs ++ splitNlC d ++ as) = joinC (bs ++ [d] ++ as) := by
  have hsp := splitNlC_ne_nil d
  have hj := joinC_splitNlC d
  rcases bs with _ | ⟨b, bs⟩ <;> rcases as with _ | ⟨a, as⟩
  · simpa using hj
  · show joinC (splitNlC d ++ a :: as) = joinC ([d] ++ a :: as)
    rw [joinC_append _ _ hsp (by simp), hj]
    simp
  · show joinC ((b :: bs) ++ splitNlC d ++ []) = joinC ((b :: bs) ++ [d] ++ [])
    rw [List.append_nil, List.append_nil,
      joinC_append _ _ (by simp) hsp,
      joinC_append _ _ (by simp) (by simp : ([d] : List (List Char)) ≠ []), hj]
    simp
  · rw [joinC_append _ _ (by simp) (by simp : (a :: as : List (List Char)) ≠ []),
      joinC_append _ _ (by simp) hsp,
      joinC_append _ _ (by simp) (by simp : (a :: as : List (List Char)) ≠ []),
      joinC_append _ _ (by simp) (by simp : ([d] : List (List Char)) ≠ []), hj]
    simp

/-- String-level version of `joinC_splitNlC_context`. -/
theorem joinNl_context (before after : List String) (r : String) :
    joinNl (before ++ splitNlStr r ++ after) = joinNl (before ++ [r] ++ after) := by
  unfold joinNl
  have hmap : (splitNlStr r).map String.data = splitNlC r.data := by
    simp [splitNlStr, List.map_map, Function.comp_def]
  simp only [List.map_append, hmap, List.map_cons, List.map_nil]
  rw [joinC_splitNlC_context]

/-! ### Lemmas about the stable descending sort -/

theorem insertDesc_perm (p : CleanProposal) (ps : List CleanProposal) :
    List.Perm (insertDesc p ps) (p :: ps) := by
  induction ps with
  | nil => exact List.Perm.refl _
  | cons q qs ih =>
    simp only [insertDesc]
    by_cases h : proposalGE q p
    · rw [if_pos h]
      exact (List.Perm.cons q ih).trans (List.Perm.swap p q qs)
    · rw [if_neg h]

theorem sortProposalsDesc_perm (ps : List CleanProposal) :
    List.Perm (sortProposalsDesc ps) ps := by
  induction ps with
  | nil => exact List.Perm.refl _
  | cons p ps ih =>
    simp only [sortProposalsDesc, List.foldr_cons] at *
    exact (insertDesc_perm p _).trans (List.Perm.cons p ih)

theorem insertDesc_pairwise (p : CleanProposal) (ps : List CleanProposal)
    (h : List.Pairwise (fun a b => b.startLine ≤ a.startLine) ps) :
    List.Pairwise (fun a b => b.startLine ≤ a.startLine) (insertDesc p ps) := by
  induction ps with
  | nil => simp [insertDesc]
  | cons q qs ih =>
    rcases List.pairwise_cons.mp h with ⟨hq, hqs⟩
    simp only [insertDesc]
    by_cases hge : proposalGE q p
    · rw [if_pos hge]
      refine List.pairwise_cons.mpr ⟨?_, ih hqs⟩
      intro x hx
      have hx' : x = p ∨ x ∈ qs := by
        simpa using (insertDesc_perm p qs).mem_iff.mp hx
      rcases hx' with rfl | hx'
      · simpa [proposalGE] using hge
      · exact hq x hx'
    · rw [if_neg hge]
      have hpq : q.startLine ≤ p.startLine := by
        have hlt : ¬ p.startLine ≤ q.startLine := by simpa [proposalGE] using hge
        exact le_of_not_le hlt
      refine List.pairwise_cons.mpr ⟨?_, h⟩
      intro x hx
      rcases List.mem_cons.mp hx with rfl | hx'
      · exact hpq
      · exact le_trans (hq x hx') hpq

theorem sortProposalsDesc_pairwise (ps : List CleanProposal) :
    List.Pairwise (fun a b => b.startLine ≤ a.startLine) (sortProposalsDesc ps) := by
  induction ps with
  | nil => simp [sortProposalsDesc]
  | cons p ps ih =>
    simp only [sortProposalsDesc, List.foldr_cons] at *
    exact insertDesc_pairwise p _ ih

/-! ### Lemmas about the sweep -/

theorem numberLinesFrom_length (b : Nat) (ls : List String) :
    (numberLinesFrom b ls).length = ls.length := by
  induction ls generalizing b with
  | nil => rfl
  | cons l ls ih => simp [numberLinesFrom, ih]

theorem numberLinesFrom_getElem? (b : Nat) (ls : List String) (i : Nat) :
    (numberLinesFrom b ls)[i]? = ls[i]?.map (fun l => Nat.repr (b + i) ++ ": " ++ l) := by
  induction ls generalizing b i with
  | nil => simp [numberLinesFrom]
  | cons l ls ih =>
    cases i with
    | zero => simp [numberLinesFrom]
    | succ i =>
      simp only [numberLinesFrom, List.getElem?_cons_succ, ih]
      have : b + (i + 1) = (b + 1) + i := by omega
      rw [this]

/-- Every candidate produced by the scanning loop of `extractTodos` spans a
single line inside the scanned file. -/
theorem extractTodosAux_range (todoTest fixmeTest : String → Bool)
    (repo filePath recentCommits : String) (allLines : List String) :
    ∀ (rest : List String) (i : Nat), i + rest.length ≤ allLines.length →
    ∀ c ∈ extractTodosAux todoTest fixmeTest repo filePath recentCommits allLines i rest,
      1 ≤ c.startLine ∧ c.startLine = c.endLine ∧ c.endLine ≤ (allLines.length : Int) := by
  intro rest
  induction rest with
  | nil =>
    intro i h c hc
    simp [extractTodosAux] at hc
  | cons l rest ih =>
    intro i h c hc
    simp only [extractTodosAux, List.length_cons] at hc h
    by_cases ht : todoTest l
    · rw [if_pos ht] at hc
      rcases List.mem_cons.mp hc with rfl | hc'
      · refine ⟨by simp [mkTodoCandidate], rfl, ?_⟩
        simp only [mkTodoCandidate]
        omega
      · exact ih (i + 1) (by omega) c hc'
    · rw [if_neg ht] at hc
      exact ih (i + 1) (by omega) c hc

/-! ### Lemmas about the publish orchestrator -/

/-- An existing `clean/<date>` branch upstream makes the repository's publish
step a no-op. -/
theorem processRepo_skip (f : FailSpec) (date : String) (w : World) (repo : String)
    (h : (repo, "clean/" ++ date) ∈ w.branches) :
    processRepo f date false w repo = w := by
  simp only [processRepo]
  simp [h]

/-- Processing a repository never removes an upstream branch. -/
theorem processRepo_branches_mono (f : FailSpec) (date : String) (dry : Bool)
    (w : World) (repo : String) (x : String × String) (h : x ∈ w.branches) :
    x ∈ (processRepo f date dry w repo).branches := by
  simp only [processRepo]
  split_ifs <;> simp [h]

/-- Processing one repository does not change another repository's pull
request count. -/
theorem processRepo_prCount_ne (f : FailSpec) (date : String) (dry : Bool)
    (w : World) (repo r : String) (h : repo ≠ r) :
    prCount (processRepo f date dry w repo) r = prCount w r := by
  simp only [processRepo, prCount]
  split_ifs <;> simp [List.countP_append, List.countP_cons, h]

/-- Processing one repository does not create or destroy another repository's
branches. -/
theorem processRepo_branches_ne (f : FailSpec) (date : String) (dry : Bool)
    (w : World) (repo r : String) (b : String) (h : repo ≠ r) :
    ((r, b) ∈ (processRepo f date dry w repo).branches ↔ (r, b) ∈ w.branches) := by
  have hr : r ≠ repo := Ne.symm h
  simp only [processRepo]
  split_ifs <;> simp [List.mem_append, Prod.mk.injEq, hr]

/-- A fully successful publish run for a repository records exactly one new
pull request for it. -/
theorem processRepo_success_prCount (f : FailSpec) (date : String) (w : World)
    (repo : String) (hnb : (repo, "clean/" ++ date) ∉ w.branches)
    (h1 : f.cloneFails repo = false) (h2 : f.applyFails repo = false)
    (h3 : f.commitFails repo = false) (h4 : f.pushFails repo = false)
    (h5 : f.prCreateFails repo = false) :
    prCount (processRepo f date false w repo) repo = prCount w repo + 1 := by
  simp only [processRepo, prCount]
  simp [hnb, h1, h2, h3, h4, h5, List.countP_append, List.countP_cons]

/-- As soon as the push succeeds, the `clean/<date>` branch exists upstream —
whether or not pull-request creation succeeds afterwards. -/
theorem processRepo_success_branch (f : FailSpec) (date : String) (w : World)
    (repo : String) (hnb : (repo, "clean/" ++ date) ∉ w.branches)
    (h1 : f.cloneFails repo = false) (h2 : f.applyFails repo = false)
    (h3 : f.commitFails repo = false) (h4 : f.pushFails repo = false) :
    (repo, "clean/" ++ date) ∈ (processRepo f date false w repo).branches := by
  simp only [processRepo]
  by_cases h5 : f.prCreateFails repo <;> simp [hnb, h1, h2, h3, h4, h5]

/-- Once a repository's `clean/<date>` branch exists, the rest of the run
leaves its pull-request count alone and the branch in place. -/
theorem foldl_processRepo_preserved (f : FailSpec) (date : String) :
    ∀ (L : List String) (w : World) (r : String),
    (r, "clean/" ++ date) ∈ w.branches →
    prCount (L.foldl (processRepo f date false) w) r = prCount w r
    ∧ (r, "clean/" ++ date) ∈ (L.foldl (processRepo f date false) w).branches := by
  intro L
  induction L with
  | nil => intro w r h; exact ⟨rfl, h⟩
  | cons k L ih =>
    intro w r h
    simp only [List.foldl_cons]
    by_cases hk : k = r
    · subst hk
      rw [processRepo_skip f date w k h]
      exact ih w k h
    · have h' : (r, "clean/" ++ date) ∈ (processRepo f date false w k).branches :=
        processRepo_branches_mono f date false w k _ h
      have hcnt := processRepo_prCount_ne f date false w k r hk
      rcases ih (processRepo f date false w k) r h' with ⟨ih1, ih2⟩
      exact ⟨ih1.trans hcnt, ih2⟩

/-- If every repository's `clean/<date>` branch already exists upstream, the
whole publish loop is a no-op. -/
theorem foldl_processRepo_noop (f : FailSpec) (date : String) :
    ∀ (L : List String) (w : World),
    (∀ r ∈ L, (r, "clean/" ++ date) ∈ w.branches) →
    L.foldl (processRepo f date false) w = w := by
  intro L
  induction L with
  | nil => intro w _; rfl
  | cons k L ih =>
    intro w h
    simp only [List.foldl_cons]
    rw [processRepo_skip f date w k (h k (List.mem_cons_self k L))]
    exact ih w (fun r hr => h r (List.mem_cons_of_mem k hr))

/-- A repository in the batch whose own steps all succeed, and whose branch
does not yet exist, ends the run with exactly one new pull request and its
branch upstream — whatever happens to the other repositories. -/
theorem foldl_processRepo_success (f : FailSpec) (date : String) :
    ∀ (L : List String) (w : World) (r : String),
    r ∈ L → (r, "clean/" ++ date) ∉ w.branches →
    f.cloneFails r = false → f.applyFails r = false → f.commitFails r = false →
    f.pushFails r = false → f.prCreateFails r = false →
    prCount (L.foldl (processRepo f date false) w) r = prCount w r + 1
    ∧ (r, "clean/" ++ date) ∈ (L.foldl (processRepo f date false) w).branches := by
  intro L
  induction L with
  | nil => intro w r hr; simp at hr
  | cons k L ih =>
    intro w r hr hnb h1 h2 h3 h4 h5
    simp only [List.foldl_cons]
    by_cases hk : k = r
    · subst hk
      have hcnt := processRepo_success_prCount f date w k hnb h1 h2 h3 h4 h5
      have hmem := processRepo_success_branch f date w k hnb h1 h2 h3 h4
      rcases foldl_processRepo_preserved f date L _ k hmem with ⟨p1, p2⟩
      exact ⟨p1.trans hcnt, p2⟩
    · have hr' : r ∈ L := by
        rcases List.mem_cons.mp hr with h | h
        · exact absurd h.symm hk
        · exact h
      have hnb' : (r, "clean/" ++ date) ∉ (processRepo f date false w k).branches := by
        intro hmem
        exact hnb ((processRepo_branches_ne f date false w k r _ hk).mp hmem)
      have hcnt := processRepo_prCount_ne f date false w k r hk
      rcases ih (processRepo f date false w k) r hr' hnb' h1 h2 h3 h4 h5 with ⟨p1, p2⟩
      exact ⟨p1.trans (by rw [hcnt]), p2⟩

/-! ### Claim theorems -/

/-- Claim C1: `openCleanPRs` applies each repository's proposals in descending
order of `startLine` (the applied list is a permutation of the batch, pairwise
descending); each individual edit rewrites the file as the lines before
`startLine`, then the replacement split by line (an empty replacement inserts
no lines, i.e. deletes the range), then the lines after `endLine`; and on the
file with lines `a,b,c,d,e`, the proposals (line 2 → `B`) and (line 4 →
delete) produce the lines `a,B,c,e`. -/
theorem patch_descending_order_and_edit_shape :
    (∀ ps : List CleanProposal,
        List.Perm (sortProposalsDesc ps) ps
        ∧ List.Pairwise (fun a b => b.startLine ≤ a.startLine) (sortProposalsDesc ps))
    ∧ (∀ (content : String) (p : CleanProposal) (r : String),
        p.replacement = some r →
        applyProposalStr content p =
          joinNl (jsSlice (splitNlStr content) 0 (p.startLine - 1)
            ++ (if r = "" then [] else splitNlStr r)
            ++ jsSliceFrom (splitNlStr content) p.endLine))
    ∧ applyAll "a\nb\nc\nd\ne"
        [{ repo := "demo", filePath := "f", startLine := 2, endLine := 2,
           original := some "b", replacement := some "B",
           rationale := some "stale", confidence := some "high" },
         { repo := "demo", filePath := "f", startLine := 4, endLine := 4,
           original := some "d", replacement := some "",
           rationale := some "stale", confidence := some "medium" }]
      = "a\nB\nc\ne" := by
  refine ⟨fun ps => ⟨sortProposalsDesc_perm ps, sortProposalsDesc_pairwise ps⟩,
    ?_, by decide⟩
  intro content p r hr
  simp only [applyProposalStr, hr]
  by_cases h : r = ""
  · subst h
    simp [truthy]
  · have ht : truthy (some r) = true := by simp [truthy, h]
    rw [ht, if_neg h]
    simp only [if_true, Option.getD_some]
    exact (joinNl_context _ _ r).symm

/-- Claim C1 witness: the per-edit shape at a concrete multi-line
replacement. -/
theorem patch_descending_order_and_edit_shape_witness :
    applyProposalStr "x\ny\nz"
      { repo := "demo", filePath := "f", startLine := 2, endLine := 2,
        original := some "y", replacement := some "A\nB",
        rationale := some "split", confidence := some "high" } =
    joinNl (jsSlice (splitNlStr "x\ny\nz") 0 (2 - 1)
      ++ (if ("A\nB" : String) = "" then [] else splitNlStr "A\nB")
      ++ jsSliceFrom (splitNlStr "x\ny\nz") 2) :=
  patch_descending_order_and_edit_shape.2.1 "x\ny\nz" _ "A\nB" rfl

/-- Claim C9: `applyProposal` is total on its line range.  For every file
content and every proposal — including `startLine` below 1, `endLine` beyond
the file, or an inverted range — the result is the join of a clamped prefix,
the truthy replacement, and a clamped suffix, because JavaScript `slice`
clamps every index into the array; in particular an inverted range and a
wildly out-of-range range silently produce (possibly unintended) contents
instead of failing. -/
theorem applyProposal_total_clamped :
    (∀ (content : String) (p : CleanProposal),
        applyProposalStr content p =
          joinNl ((splitNlStr content).take
              (jsSliceIdx (splitNlStr content).length (p.startLine - 1))
            ++ (if truthy p.replacement then [p.replacement.getD ""] else [])
            ++ (splitNlStr content).drop
              (jsSliceIdx (splitNlStr content).length p.endLine)))
    ∧ (∀ (len : Nat) (i : Int), jsSliceIdx len i ≤ len)
    ∧ applyProposalStr "a\nb\nc"
        { repo := "demo", filePath := "f", startLine := 3, endLine := 1,
          original := none, replacement := some "X", rationale := none,
          confidence := none }
      = "a\nb\nX\nb\nc"
    ∧ applyProposalStr "a\nb\nc"
        { repo := "demo", filePath := "f", startLine := -5, endLine := 100,
          original := none, replacement := some "X", rationale := none,
          confidence := none }
      = "X" := by
  refine ⟨?_, ?_, by decide, by decide⟩
  · intro content p
    simp only [applyProposalStr, jsSlice, jsSliceFrom]
    have h0 : jsSliceIdx (splitNlStr content).length 0 = 0 := by
      simp [jsSliceIdx]
    have hlen : jsSliceIdx (splitNlStr content).length
        ((splitNlStr content).length : Int) = (splitNlStr content).length := by
      simp [jsSliceIdx]
    rw [h0, hlen, List.drop_zero, List.take_length]
  · intro len i
    unfold jsSliceIdx
    split
    · omega
    · exact min_le_right _ _

/-- Claim C10: the applied file content depends only on a proposal's
`startLine`, `endLine` and `replacement`; the recorded `original`,
`rationale` and `confidence` are never consulted, so the recorded original
text is never compared against the file's current text. -/
theorem applyProposal_range_replacement_only (content : String)
    (p q : CleanProposal) (hs : p.startLine = q.startLine)
    (he : p.endLine = q.endLine) (hr : p.replacement = q.replacement) :
    applyProposalStr content p = applyProposalStr content q := by
  simp only [applyProposalStr, hs, he, hr]

/-- Claim C10 witness: two proposals agreeing on the range and replacement but
differing in `original` (one records text that is not in the file),
`rationale` and `confidence` rewrite the file identically. -/
theorem applyProposal_range_replacement_only_witness :
    applyProposalStr "old line 1\nold line 2"
      { repo := "demo", filePath := "f", startLine := 2, endLine := 2,
        original := some "old line 2", replacement := some "new line",
        rationale := some "stale", confidence := some "high" } =
    applyProposalStr "old line 1\nold line 2"
      { repo := "demo", filePath := "f", startLine := 2, endLine := 2,
        original := some "text the file never contained",
        replacement := some "new line",
        rationale := some "a different reason", confidence := some "medium" } :=
  applyProposal_range_replacement_only "old line 1\nold line 2" _ _ rfl rfl rfl

/-- Claim C3 counterexample: `validateDocCandidate` copies the oracle's line
numbers without any bounds check, so a doc-file candidate over a 2-line file
and an oracle edit claiming lines 100–200 with high confidence yields a
proposal whose range lies outside the file. -/
theorem proposal_range_invariant_cex :
    ¬ (∀ p ∈ validateDocCandidate
          { repo := "shell", filePath := "README.md", startLine := 1,
            endLine := 2, original := "x\ny", context := "1: x\n2: y",
            kind := .docFile, recentCommits := "" }
          (.edits [{ startLine := 100, endLine := 200, original := some "x",
                     replacement := some "z", rationale := some "stale",
                     confidence := some "high" }]),
        p.endLine ≤ ((splitNlStr "x\ny").length : Int)) := by
  decide

/-- Claim C3 (amended): proposals emitted for tag candidates produced by
`extractTodos` inherit the candidate's single-line range, which lies within
the scanned file (`1 ≤ startLine = endLine ≤ lineCount`); proposals emitted
for doc-file candidates copy the oracle response's line numbers verbatim,
with no bounds check against the file. -/
theorem proposal_range_invariant_amended :
    (∀ (todoTest fixmeTest : String → Bool)
        (repo filePath content rc : String) (c : CleanCandidate)
        (resp : TodoOracleResponse) (p : CleanProposal),
        c ∈ extractTodos todoTest fixmeTest repo filePath content rc →
        validateTodoCandidate c resp = some p →
        1 ≤ p.startLine ∧ p.startLine = p.endLine
          ∧ p.endLine ≤ ((splitNlStr content).length : Int))
    ∧ (∀ (c : CleanCandidate) (es : List DocEdit) (p : CleanProposal),
        p ∈ validateDocCandidate c (.edits es) →
        ∃ e ∈ es, p.startLine = e.startLine ∧ p.endLine = e.endLine) := by
  constructor
  · intro tt ft repo fp content rc c resp p hcand hval
    simp only [extractTodos] at hcand
    have hc := extractTodosAux_range tt ft repo fp rc (splitNlStr content)
      (splitNlStr content) 0 (by simp) c hcand
    rcases resp with _ | r
    · simp [validateTodoCandidate] at hval
    · simp only [validateTodoCandidate] at hval
      by_cases hg : (!r.resolved || r.confidence == some "low")
      · rw [if_pos hg] at hval
        exact absurd hval (by simp)
      · rw [if_neg hg] at hval
        have hp := Option.some.inj hval
        subst hp
        exact ⟨hc.1, hc.2.1, hc.2.2⟩
  · intro c es p hp
    simp only [validateDocCandidate, List.mem_map] at hp
    rcases hp with ⟨e, he, rfl⟩
    exact ⟨e, (List.mem_filter.mp he).1, rfl, rfl⟩

/-- Claim C3 (amended) witness: the tag half at a concrete TODO candidate
extracted from a 3-line file and a concrete resolving oracle response. -/
theorem proposal_range_invariant_amended_witness :
    1 ≤ ({ repo := "demo", filePath := "a.ts", startLine := 2, endLine := 2,
           original := some "// TODO: fix this properly",
           replacement := some "", rationale := some "shipped in abc123",
           confidence := some "high" } : CleanProposal).startLine
    ∧ ({ repo := "demo", filePath := "a.ts", startLine := 2, endLine := 2,
         original := some "// TODO: fix this properly",
         replacement := some "", rationale := some "shipped in abc123",
         confidence := some "high" } : CleanProposal).startLine
      = ({ repo := "demo", filePath := "a.ts", startLine := 2, endLine := 2,
           original := some "// TODO: fix this properly",
           replacement := some "", rationale := some "shipped in abc123",
           confidence := some "high" } : CleanProposal).endLine
    ∧ ({ repo := "demo", filePath := "a.ts", startLine := 2, endLine := 2,
         original := some "// TODO: fix this properly",
         replacement := some "", rationale := some "shipped in abc123",
         confidence := some "high" } : CleanProposal).endLine
      ≤ ((splitNlStr "a\n// TODO: fix this properly\nb").length : Int) :=
  proposal_range_invariant_amended.1
    (fun l => l == "// TODO: fix this properly") (fun _ => false)
    "demo" "a.ts" "a\n// TODO: fix this properly\nb" ""
    { repo := "demo", filePath := "a.ts", startLine := 2, endLine := 2,
      original := "// TODO: fix this properly",
      context := "1: a\n2: // TODO: fix this properly\n3: b",
      kind := .todo, recentCommits := "" }
    (.result { resolved := true, evidence := some "shipped in abc123",
               replacement := some "", confidence := some "high" })
    _ (by decide) (by decide)

/-- Claim C4: the tag validator's gate rejects only the exact string `low`; a
resolved oracle response carrying the out-of-schema confidence `certain`
still produces a proposal whose `confidence` field is `certain` — outside the
`high`/`medium` set that `CleanProposal` declares and the claim allows. -/
theorem todo_gate_accepts_offschema_confidence :
    validateTodoCandidate
      { repo := "shell", filePath := "src/foo.ts", startLine := 12,
        endLine := 12, original := "// TODO: remove fallback once migrated",
        context := "12: // TODO: remove fallback once migrated",
        kind := .todo, recentCommits := "abc: remove fallback" }
      (.result { resolved := true, evidence := some "fallback removed",
                 replacement := some "", confidence := some "certain" })
    = some { repo := "shell", filePath := "src/foo.ts", startLine := 12,
             endLine := 12,
             original := some "// TODO: remove fallback once migrated",
             replacement := some "", rationale := some "fallback removed",
             confidence := some "certain" } := by
  decide

/-- Claim C5: the validator never emits a proposal whose `confidence` field is
the string `low`: doc proposals keep only `high`/`medium` edits, tag
proposals are dropped when the confidence is `low`, and a response carrying
only low-confidence entries yields no proposal at all. -/
theorem no_low_confidence_leakage :
    (∀ (c : CleanCandidate) (resp : DocOracleResponse),
        ∀ p ∈ validateDocCandidate c resp, ¬ p.confidence = some "low")
    ∧ (∀ (c : CleanCandidate) (resp : TodoOracleResponse) (p : CleanProposal),
        validateTodoCandidate c resp = some p → ¬ p.confidence = some "low")
    ∧ (∀ (c : CleanCandidate) (es : List DocEdit),
        (∀ e ∈ es, e.confidence = some "low") →
        validateDocCandidate c (.edits es) = [])
    ∧ (∀ (c : CleanCandidate) (r : TodoResult),
        r.confidence = some "low" →
        validateTodoCandidate c (.result r) = none) := by
  refine ⟨?_, ?_, ?_, ?_⟩
  · intro c resp p hp
    rcases resp with _ | es
    · simp [validateDocCandidate] at hp
    · simp only [validateDocCandidate, List.mem_map] at hp
      rcases hp with ⟨e, he, rfl⟩
      have hf := (List.mem_filter.mp he).2
      intro hlow
      have hl : e.confidence = some "low" := hlow
      rw [hl] at hf
      simp at hf
  · intro c resp p hval
    rcases resp with _ | r
    · simp [validateTodoCandidate] at hval
    · simp only [validateTodoCandidate] at hval
      by_cases hg : (!r.resolved || r.confidence == some "low")
      · rw [if_pos hg] at hval
        exact absurd hval (by simp)
      · rw [if_neg hg] at hval
        have hp := Option.some.inj hval
        subst hp
        intro hlow
        have hcl : r.confidence = some "low" := hlow
        exact hg (by simp [hcl])
  · intro c es hall
    simp only [validateDocCandidate]
    have hnil : es.filter
        (fun e => e.confidence == some "high" || e.confidence == some "medium") = [] := by
      apply List.filter_eq_nil_iff.mpr
      intro e he
      rw [hall e he]
      decide
    rw [hnil]
    rfl
  · intro c r hlow
    simp [validateTodoCandidate, hlow]

/-- Claim C5 witness: a doc response with a single low-confidence edit yields
no proposals, and a low-confidence tag response yields no proposal. -/
theorem no_low_confidence_leakage_witness :
    validateDocCandidate
      { repo := "shell", filePath := "README.md", startLine := 1, endLine := 1,
        original := "x", context := "1: x", kind := .docFile,
        recentCommits := "" }
      (.edits [{ startLine := 1, endLine := 1, original := some "x",
                 replacement := some "y", rationale := some "maybe",
                 confidence := some "low" }]) = []
    ∧ validateTodoCandidate
      { repo := "shell", filePath := "a.ts", startLine := 5, endLine := 5,
        original := "// TODO: think about caching here",
        context := "5: // TODO: think about caching here", kind := .todo,
        recentCommits := "" }
      (.result { resolved := true, evidence := some "unsure",
                 replacement := some "", confidence := some "low" }) = none :=
  ⟨no_low_confidence_leakage.2.2.1 _ _ (by decide),
   no_low_confidence_leakage.2.2.2 _ _ rfl⟩

/-- Claim C6 counterexample: a tag oracle response that parses as JSON but is
missing its `evidence`, `replacement` and `confidence` fields still produces
a proposal — the code does no shape validation, so a missing-fields response
is not treated as "zero proposals". -/
theorem oracle_shape_cex :
    (validateTodoCandidate
        { repo := "shell", filePath := "a.ts", startLine := 3, endLine := 3,
          original := "// TODO: drop legacy path soon",
          context := "3: // TODO: drop legacy path soon", kind := .todo,
          recentCommits := "" }
        (.result { resolved := true, evidence := none, replacement := none,
                   confidence := none })).isSome = true := by
  decide

/-- Claim C6 (amended): an oracle call that fails outright — network error,
unparsable JSON, or a response whose processing throws — yields zero
proposals and no error (`validateDocCandidate` returns `[]`,
`validateTodoCandidate` returns `none`), and `validateCandidates` continues
with the remaining candidates; responses that parse but have missing fields
are not shape-checked, however, and can still produce proposals. -/
theorem oracle_failure_ignored :
    (∀ c : CleanCandidate, validateDocCandidate c .failure = [])
    ∧ (∀ c : CleanCandidate, validateTodoCandidate c .failure = none)
    ∧ (∀ (oracleDoc : CleanCandidate → DocOracleResponse)
         (oracleTodo : CleanCandidate → TodoOracleResponse)
         (c : CleanCandidate) (cs : List CleanCandidate),
        oracleDoc c = .failure → oracleTodo c = .failure →
        validateCandidates oracleDoc oracleTodo (c :: cs)
          = validateCandidates oracleDoc oracleTodo cs) := by
  refine ⟨fun _ => rfl, fun _ => rfl, ?_⟩
  intro od ot c cs hd ht
  cases hk : c.kind <;>
    simp [validateCandidates, hk, hd, ht, validateDocCandidate,
      validateTodoCandidate]

/-- Claim C6 (amended) witness: a batch whose only candidate gets a failing
oracle call validates to the same proposals as the batch without it. -/
theorem oracle_failure_ignored_witness :
    validateCandidates (fun _ => .failure) (fun _ => .failure)
      [{ repo := "demo", filePath := "f.ts", startLine := 1, endLine := 1,
         original := "// TODO: clean this up sometime", context := "1: // TODO: clean this up sometime",
         kind := .todo, recentCommits := "" }]
    = validateCandidates (fun _ => .failure) (fun _ => .failure) [] :=
  oracle_failure_ignored.2.2 _ _ _ _ rfl rfl

/-- Claim C2: for every repository and run date, an upstream branch
`clean/<date>` makes the publish step a no-op for that repository (no clone,
commit, push, or pull-request creation — the world is unchanged); hence
running the publish step twice for the same date changes nothing the second
time and opens exactly one pull request per repository of the batch. -/
theorem publish_idempotent :
    (∀ (f : FailSpec) (date : String) (w : World) (repo : String),
        (repo, "clean/" ++ date) ∈ w.branches →
        processRepo f date false w repo = w)
    ∧ (∀ (ps : List CleanProposal) (date : String) (w0 : World),
        (∀ r ∈ groupKeys ps, (r, "clean/" ++ date) ∉ w0.branches) →
        openCleanPRsW noFail ps date false (openCleanPRsW noFail ps date false w0)
            = openCleanPRsW noFail ps date false w0
        ∧ ∀ r ∈ groupKeys ps,
            prCount (openCleanPRsW noFail ps date false w0) r
              = prCount w0 r + 1) := by
  constructor
  · intro f date w repo h
    exact processRepo_skip f date w repo h
  · intro ps date w0 h
    have hall : ∀ r ∈ groupKeys ps,
        prCount (openCleanPRsW noFail ps date false w0) r = prCount w0 r + 1
        ∧ (r, "clean/" ++ date) ∈ (openCleanPRsW noFail ps date false w0).branches :=
      fun r hr =>
        foldl_processRepo_success noFail date (groupKeys ps) w0 r hr (h r hr)
          rfl rfl rfl rfl rfl
    exact ⟨foldl_processRepo_noop noFail date (groupKeys ps) _
        (fun r hr => (hall r hr).2),
      fun r hr => (hall r hr).1⟩

/-- Claim C2 witness: a batch with two proposals for `shell` and one for
`web`, published twice for one date starting from an empty world — the second
run changes nothing and `shell` has exactly one pull request. -/
theorem publish_idempotent_witness :
    openCleanPRsW noFail idemProposals "2026-02-28" false
        (openCleanPRsW noFail idemProposals "2026-02-28" false emptyWorld)
      = openCleanPRsW noFail idemProposals "2026-02-28" false emptyWorld
    ∧ prCount (openCleanPRsW noFail idemProposals "2026-02-28" false emptyWorld)
        "shell" = prCount emptyWorld "shell" + 1 := by
  have h := publish_idempotent.2 idemProposals "2026-02-28" emptyWorld (by decide)
  exact ⟨h.1, h.2 "shell" (by decide)⟩

/-- Claim C7: per-repository failure is isolated.  Whatever steps fail for
other repositories, a repository of the batch whose own clone, apply, commit,
push and pull-request creation succeed (and whose branch does not already
exist) ends the run with exactly one new pull request; concretely, with three
repositories where the second one's push fails, the first and third are still
attempted (all three are cloned) and both get their pull request, while the
failed one gets none. -/
theorem publish_fault_isolation :
    (∀ (f : FailSpec) (ps : List CleanProposal) (date : String) (w0 : World)
        (r : String),
        r ∈ groupKeys ps →
        (r, "clean/" ++ date) ∉ w0.branches →
        f.cloneFails r = false → f.applyFails r = false →
        f.commitFails r = false → f.pushFails r = false →
        f.prCreateFails r = false →
        prCount (openCleanPRsW f ps date false w0) r = prCount w0 r + 1)
    ∧ prCount (openCleanPRsW scenarioFail scenarioProposals "2026-02-28" false
          emptyWorld) "alpha" = 1
    ∧ prCount (openCleanPRsW scenarioFail scenarioProposals "2026-02-28" false
          emptyWorld) "beta" = 0
    ∧ prCount (openCleanPRsW scenarioFail scenarioProposals "2026-02-28" false
          emptyWorld) "gamma" = 1
    ∧ (openCleanPRsW scenarioFail scenarioProposals "2026-02-28" false
          emptyWorld).clones = ["alpha", "beta", "gamma"]
    ∧ (openCleanPRsW scenarioFail scenarioProposals "2026-02-28" false
          emptyWorld).pushes = ["alpha", "gamma"] := by
  refine ⟨?_, by decide, by decide, by decide, by decide, by decide⟩
  intro f ps date w0 r hmem hnb h1 h2 h3 h4 h5
  exact (foldl_processRepo_success f date (groupKeys ps) w0 r hmem hnb
    h1 h2 h3 h4 h5).1

/-- Claim C7 witness: the isolation statement applied to the concrete
three-repository scenario, for the third repository. -/
theorem publish_fault_isolation_witness :
    prCount (openCleanPRsW scenarioFail scenarioProposals "2026-02-28" false
        emptyWorld) "gamma" = prCount emptyWorld "gamma" + 1 :=
  publish_fault_isolation.1 scenarioFail scenarioProposals "2026-02-28"
    emptyWorld "gamma" (by decide) (by decide) rfl rfl rfl (by decide) rfl

/-- Claim C8: every doc-file candidate accepted by the sweep spans the whole
file (`startLine = 1`, `endLine = N` for a file of `N` lines) and its context
is the join of exactly `N` numbered lines, the `i`-th carrying the 1-based
number `i + 1` followed by the `i`-th file line — numbers `1..N` in order
with no gaps or duplicates. -/
theorem doc_context_complete (repo docFile content recentCommits : String)
    (c : CleanCandidate)
    (hc : sweepDocFile repo docFile (some content) recentCommits = some c) :
    c.startLine = 1
    ∧ c.endLine = ((splitNlStr content).length : Int)
    ∧ c.context = joinNl (numberLinesFrom 1 (splitNlStr content))
    ∧ (numberLinesFrom 1 (splitNlStr content)).length = (splitNlStr content).length
    ∧ ∀ i : Nat, (numberLinesFrom 1 (splitNlStr content))[i]?
        = (splitNlStr content)[i]?.map
            (fun l => Nat.repr (i + 1) ++ ": " ++ l) := by
  have hc' : c = docCandidate repo docFile content recentCommits := by
    simp only [sweepDocFile] at hc
    by_cases h : content.length < 50
    · rw [if_pos h] at hc
      exact absurd hc (by simp)
    · rw [if_neg h] at hc
      exact (Option.some.inj hc).symm
  subst hc'
  refine ⟨rfl, rfl, rfl, numberLinesFrom_length 1 _, fun i => ?_⟩
  simpa [Nat.add_comm] using numberLinesFrom_getElem? 1 (splitNlStr content) i

/-- Claim C8 witness: a concrete three-line README accepted by the sweep. -/
theorem doc_context_complete_witness :
    (docCandidate "shell" "README.md"
        "# Daily logger\n\nCollects GitHub activity and writes one article per day." "").startLine = 1
    ∧ (numberLinesFrom 1 (splitNlStr
        "# Daily logger\n\nCollects GitHub activity and writes one article per day.")).length
      = (splitNlStr
        "# Daily logger\n\nCollects GitHub activity and writes one article per day.").length
    ∧ (numberLinesFrom 1 (splitNlStr
        "# Daily logger\n\nCollects GitHub activity and writes one article per day."))[2]?
      = (splitNlStr
        "# Daily logger\n\nCollects GitHub activity and writes one article per day.")[2]?.map
          (fun l => Nat.repr (2 + 1) ++ ": " ++ l) := by
  have h := doc_context_complete "shell" "README.md"
    "# Daily logger\n\nCollects GitHub activity and writes one article per day." ""
    (docCandidate "shell" "README.md"
      "# Daily logger\n\nCollects GitHub activity and writes one article per day." "")
    (by decide)
  exact ⟨h.1, h.2.2.2.1, h.2.2.2.2 2⟩

end DailyCleaner
